import Mathlib

/-!
A shallow embedding of the scheduling core of `cirq-core/cirq/circuits/circuit.py`
(classes `AbstractCircuit` / `Circuit` and their helper functions), together with
proofs settling the claims about it.

Conventions of the embedding:
* Qubits (resources) and classical keys are `Nat`.
* An `Op` carries its ordered qubit tuple, classical control/measurement keys and a
  gate tag (so that distinct operations on the same qubits are distinguishable).
* `Moment` (the spec's TimeSlot) is kept as the ordered list of its operations.
  The class itself lives in `cirq/circuits/moment.py`, which is not part of the
  source shown; its operations used here (`operates_on`, `operation_at`,
  `with_operation`, construction-time validation) are modelled from the spec,
  section 4.1: construction and disjoint union fail when two operations share a
  resource.
* Python exceptions become `Except Err`; methods that mutate `self` are modelled
  as functions returning the new state, or a `(Except Err result) × state` pair
  when a claim is about the state left behind by a failing call.
* Integer indices stay `Int` wherever Python accepts arbitrary ints.
-/

namespace Cirq

/-- An operation: gate tag, ordered qubit tuple, classical control keys and
measurement keys (`protocols.control_keys` / `protocols.measurement_key_objs`). -/
structure Op where
  gate : Nat
  qubits : List Nat
  controlKeys : List Nat := []
  measKeys : List Nat := []
deriving DecidableEq, Repr

/-- Errors surfaced by the circuit methods: Python `ValueError`, `IndexError`,
and the `ValueError` raised by `Moment` construction on overlapping qubits. -/
inductive Err where
  | valueError
  | indexError
  | overlap
deriving DecidableEq, Repr

/-- A moment (the spec's TimeSlot): the ordered tuple of its operations. -/
structure Moment where
  ops : List Op
deriving DecidableEq, Repr

namespace Moment

/-- All qubits touched by the moment. -/
def qubits (m : Moment) : List Nat := m.ops.flatMap Op.qubits

/-- All classical control keys of the moment's operations. -/
def controlKeys (m : Moment) : List Nat := m.ops.flatMap Op.controlKeys

/-- All classical measurement keys of the moment's operations. -/
def measKeys (m : Moment) : List Nat := m.ops.flatMap Op.measKeys

/-- `Moment.operates_on`: does any operation touch one of the given qubits? -/
def operatesOn (m : Moment) (qs : List Nat) : Bool :=
  m.ops.any fun o => o.qubits.any fun q => qs.contains q

/-- `Moment.operation_at`: the operation covering qubit `q`, if any. -/
def operationAt (m : Moment) (q : Nat) : Option Op :=
  m.ops.find? fun o => o.qubits.contains q

/-- Modelled from the spec: TimeSlot disjoint union (`Moment.with_operation`)
fails when the new operation shares a qubit with an existing one. -/
def withOperation (m : Moment) (op : Op) : Except Err Moment :=
  if m.operatesOn op.qubits then .error .overlap else .ok ⟨m.ops ++ [op]⟩

/-- Unchecked merge of two moments (used where the caller has already ruled out
collisions, e.g. the `+` in `_tetris_concat_helper`). -/
def merge (m₁ m₂ : Moment) : Moment := ⟨m₁.ops ++ m₂.ops⟩

end Moment

/-- Do two operations act on disjoint qubit sets? -/
def opsDisjoint (a b : Op) : Bool := a.qubits.all fun q => ¬ b.qubits.contains q

/-- Pairwise disjointness of the qubit sets of a list of operations (invariant I1). -/
def validOps : List Op → Bool
  | [] => true
  | o :: rest => rest.all (opsDisjoint o) && validOps rest

/-- Modelled from the spec: TimeSlot construction (`Moment(...)`) validates
invariant I1 and fails with a `ValueError` otherwise. -/
def mkMoment (l : List Op) : Except Err Moment :=
  if validOps l then .ok ⟨l⟩ else .error .overlap

/-- A circuit: the owned ordered list of moments (`Circuit._moments`).  The
device is always `UNCONSTRAINED_DEVICE`, whose validation hooks are no-ops, so
it is not represented.  Circuit equality is element-wise moment equality. -/
structure Circuit where
  moments : List Moment
deriving DecidableEq, Repr

namespace Circuit

/-- `len(circuit)`. -/
def length (c : Circuit) : Nat := c.moments.length

/-- Total number of operations across all moments. -/
def totalOps (c : Circuit) : Nat := (c.moments.map fun m => m.ops.length).sum

end Circuit

/-- Python `list.insert(k, x)` (the call sites keep `k ≤ len`, and `take`/`drop`
clamp beyond-the-end indices exactly as Python does). -/
def listInsertAt (l : List Moment) (k : Nat) (m : Moment) : List Moment :=
  l.take k ++ m :: l.drop k

/-- Python list indexing (`lst[i]`) with support for negative indices;
`none` models `IndexError`. -/
def pyIdx (len : Nat) (i : Int) : Option Nat :=
  if 0 ≤ i ∧ i < (len : Int) then some i.toNat
  else if -(len : Int) ≤ i ∧ i < 0 then some ((len : Int) + i).toNat
  else none

/-- `ms[k]` with an empty moment as a (never exercised) default. -/
def getM (ms : List Moment) (k : Nat) : Moment := ms.getD k ⟨[]⟩

/-- Python `lst[i]` on the moment list. -/
def pyGet (ms : List Moment) (i : Int) : Except Err Moment :=
  match pyIdx ms.length i with
  | some j => .ok (getM ms j)
  | none => .error .indexError

/-- Python `lst[i] = m` on the moment list. -/
def pySet (ms : List Moment) (i : Int) (m : Moment) : List Moment :=
  match pyIdx ms.length i with
  | some j => ms.set j m
  | none => ms

/-- The list of `Int` indices `start, start+1, …, start+n-1` (empty if `n ≤ 0`),
modelling Python `range(start, start + n)`. -/
def intRange (start : Int) (n : Int) : List Int :=
  (List.range n.toNat).map fun i : Nat => start + (i : Int)

/-- Python slice `lst[i:]` with Python's normalization of negative and
out-of-range starts. -/
def pySliceFrom (ms : List Moment) (i : Int) : List Moment :=
  let n : Int := (ms.length : Int)
  let j : Int := if i < 0 then max (n + i) 0 else min i n
  ms.drop j.toNat

namespace Circuit

/-- `AbstractCircuit._has_op_at`. -/
def hasOpAt (c : Circuit) (m : Int) (qs : List Nat) : Bool :=
  decide (0 ≤ m) && decide (m < (c.length : Int)) && (getM c.moments m.toNat).operatesOn qs

/-- `AbstractCircuit._first_moment_operating_on`. -/
def firstMomentOperatingOn (c : Circuit) (qs : List Nat) (indices : List Int) : Option Int :=
  indices.find? fun m => c.hasOpAt m qs

/-- `AbstractCircuit.next_moment_operating_on`. -/
def nextMomentOperatingOn (c : Circuit) (qs : List Nat) (start : Int)
    (maxDistance : Option Int) : Except Err (Option Int) :=
  let maxCircuitDistance : Int := (c.length : Int) - start
  match maxDistance with
  | none => .ok (c.firstMomentOperatingOn qs (intRange start maxCircuitDistance))
  | some d =>
    if d < 0 then .error .valueError
    else .ok (c.firstMomentOperatingOn qs (intRange start (min d maxCircuitDistance)))

/-- `next_moment_operating_on` with `max_distance` left at its default. -/
def nextMomentOn (c : Circuit) (qs : List Nat) (start : Int) : Option Int :=
  c.firstMomentOperatingOn qs (intRange start ((c.length : Int) - start))

/-- `AbstractCircuit.prev_moment_operating_on`. -/
def prevMomentOperatingOn (c : Circuit) (qs : List Nat) (endIndex : Option Int)
    (maxDistance : Option Int) : Except Err (Option Int) :=
  let len : Int := (c.length : Int)
  let e₀ : Int := endIndex.getD len
  let md? : Except Err Int :=
    match maxDistance with
    | none => .ok len
    | some d => if d < 0 then .error .valueError else .ok (min e₀ d)
  match md? with
  | .error e => .error e
  | .ok md₀ =>
    let e := if e₀ > len then len else e₀
    let md := if e₀ > len then md₀ - (e₀ - len) else md₀
    if md ≤ 0 then .ok none
    else .ok (c.firstMomentOperatingOn qs ((List.range md.toNat).map fun k => e - 1 - (k : Int)))

/-- `AbstractCircuit.operation_at`. -/
def operationAt (c : Circuit) (q : Nat) (i : Int) : Option Op :=
  if 0 ≤ i ∧ i < (c.length : Int) then (getM c.moments i.toNat).operationAt q else none

end Circuit

/-- Lookup in a frontier dictionary (insertion-ordered association list). -/
def lookupF (f : List (Nat × Int)) (q : Nat) : Option Int :=
  (f.find? fun p => p.1 = q).map (·.2)

/-- Dict assignment `f[q] = v`: replace in place, or append a new binding. -/
def setF (f : List (Nat × Int)) (q : Nat) (v : Int) : List (Nat × Int) :=
  if f.any fun p => p.1 = q then f.map fun p => if p.1 = q then (q, v) else p
  else f ++ [(q, v)]

/-- Inner loop of `findall_operations_until_blocked` over one moment's
operations, threading the `blocked_qubits` set and the result list. -/
def fobMomentStep (isBlocker : Op → Bool) (index : Int) (active : List Nat) :
    List Op → List Nat → List (Int × Op) → (List Nat × List (Int × Op))
  | [], blocked, acc => (blocked, acc)
  | op :: rest, blocked, acc =>
    if isBlocker op || op.qubits.any fun q => blocked.contains q then
      fobMomentStep isBlocker index active rest
        (blocked ++ op.qubits.filter fun q => ¬ blocked.contains q) acc
    else if op.qubits.any fun q => active.contains q then
      fobMomentStep isBlocker index active rest blocked (acc ++ [(index, op)])
    else
      fobMomentStep isBlocker index active rest blocked acc

/-- Outer loop of `findall_operations_until_blocked` over the moments of
`self[start_index:]`, breaking once `blocked_qubits` covers the frontier. -/
def fobLoop (isBlocker : Op → Bool) (sf : List (Nat × Int)) :
    List Moment → Int → List Nat → List (Int × Op) → List (Int × Op)
  | [], _, _, acc => acc
  | m :: rest, index, blocked, acc =>
    let active := (sf.filter fun p => p.2 ≤ index).map (·.1)
    let (blockedNext, accNext) := fobMomentStep isBlocker index active m.ops blocked acc
    if (sf.map (·.1)).all (fun q => blockedNext.contains q) then accNext
    else fobLoop isBlocker sf rest (index + 1) blockedNext accNext

/-- `AbstractCircuit.findall_operations_until_blocked`. -/
def Circuit.findallOperationsUntilBlocked (c : Circuit) (sf : List (Nat × Int))
    (isBlocker : Op → Bool) : List (Int × Op) :=
  if sf.isEmpty then []
  else
    let startIndex : Int := ((sf.map (·.2)).min?).getD 0
    fobLoop isBlocker sf (pySliceFrom c.moments startIndex) startIndex [] []

/-- C10: `findall_operations_until_blocked` called with an empty start frontier
returns the empty list for every circuit and blocker predicate; the guard
`if not start_frontier: return op_list` fires before `min(start_frontier.values())`
is ever evaluated. -/
theorem findall_operations_until_blocked_empty_frontier
    (c : Circuit) (isBlocker : Op → Bool) :
    c.findallOperationsUntilBlocked [] isBlocker = [] := rfl

/-- `cirq.InsertStrategy`. -/
inductive Strategy where
  | NEW
  | NEW_THEN_INLINE
  | INLINE
  | EARLIEST
deriving DecidableEq, Repr

/-- The condition making the backward scan of `Circuit._prev_moment_available`
stop at a moment: it operates on one of the op's qubits, or a classical key
dependency crosses (op control keys vs moment measurement keys, and vice versa). -/
def momentBlocks (m : Moment) (op : Op) : Bool :=
  m.operatesOn op.qubits
    || op.controlKeys.any (fun k => m.measKeys.contains k)
    || m.controlKeys.any (fun k => op.measKeys.contains k)

/-- `Circuit._can_add_op_at` (unconstrained device): out-of-range indices are
always usable, in-range moments must not already touch the op's qubits. -/
def canAddOpAt (ms : List Moment) (i : Nat) (op : Op) : Bool :=
  if i < ms.length then ¬ (getM ms i).operatesOn op.qubits else true

/-- The `while k > 0` loop of `Circuit._prev_moment_available`: `k` moments left
to scan downward, `last` the last available index found so far. -/
def prevAvailAux (ms : List Moment) (op : Op) : Nat → Nat → Nat
  | 0, last => last
  | k + 1, last =>
    if momentBlocks (getM ms k) op then last
    else prevAvailAux ms op k (if canAddOpAt ms k op then k else last)

/-- `Circuit._prev_moment_available`. -/
def prevMomentAvailable (ms : List Moment) (op : Op) (endIdx : Nat) : Nat :=
  prevAvailAux ms op endIdx endIdx

/-- The largest index `j < k` whose moment blocks `op`, if any (used to state
the closed form of `prevMomentAvailable`). -/
def lastBlocker (ms : List Moment) (op : Op) : Nat → Option Nat
  | 0 => none
  | k + 1 => if momentBlocks (getM ms k) op then some k else lastBlocker ms op k

/-- The `InsertStrategy.NEW` branch of `_pick_or_create_inserted_op_moment_index`:
splice in a fresh empty moment at the cursor. -/
def pickNew (ms : List Moment) (k : Nat) : List Moment × Nat :=
  (listInsertAt ms k ⟨[]⟩, k)

/-- The `InsertStrategy.INLINE` branch: use the moment just before the cursor
when it exists and accepts the op, otherwise fall back to NEW. -/
def pickInline (ms : List Moment) (k : Nat) (op : Op) : List Moment × Nat :=
  if 1 ≤ k ∧ k - 1 < ms.length ∧ canAddOpAt ms (k - 1) op then (ms, k - 1)
  else pickNew ms k

/-- The `InsertStrategy.EARLIEST` branch: when the cursor's own slot is usable,
scan backward for the earliest available moment, else fall back to INLINE.
(Python's `p or 0` equals `p` because `p = 0` also yields `0`.) -/
def pickEarliest (ms : List Moment) (k : Nat) (op : Op) : List Moment × Nat :=
  if canAddOpAt ms k op then (ms, prevMomentAvailable ms op k)
  else pickInline ms k op

/-- `Circuit._pick_or_create_inserted_op_moment_index`: returns the (possibly
grown) moment list together with the index where the op is to be placed. -/
def pickOrCreate (ms : List Moment) (k : Nat) (op : Op) : Strategy → List Moment × Nat
  | .NEW => pickNew ms k
  | .NEW_THEN_INLINE => pickNew ms k
  | .INLINE => pickInline ms k op
  | .EARLIEST => pickEarliest ms k op

/-- One element of the flattened operation tree handed to `Circuit.insert`:
either a moment (inserted verbatim) or a bare operation. -/
inductive MoOrOp where
  | mom (m : Moment)
  | op (o : Op)
deriving DecidableEq, Repr

/-- The `while p >= len(self._moments): self._moments.append(Moment())` padding. -/
def padTo (ms : List Moment) (p : Nat) : List Moment :=
  ms ++ List.replicate (p + 1 - ms.length) ⟨[]⟩

/-- The main loop of `Circuit.insert` over the flattened tree, threading the
moment list and the cursor `k`; `NEW_THEN_INLINE` degrades to `INLINE` after
the first bare operation. -/
def insertLoop (strategy : Strategy) : List MoOrOp → List Moment → Nat →
    Except Err (List Moment × Nat)
  | [], ms, k => .ok (ms, k)
  | .mom m :: rest, ms, k => insertLoop strategy rest (listInsertAt ms k m) (k + 1)
  | .op o :: rest, ms, k =>
    let picked := pickOrCreate ms k o strategy
    let padded := padTo picked.1 picked.2
    match (getM padded picked.2).withOperation o with
    | .error e => .error e
    | .ok m₂ =>
      let strategyNext : Strategy := if strategy = .NEW_THEN_INLINE then .INLINE else strategy
      insertLoop strategyNext rest (padded.set picked.2 m₂) (max k (picked.2 + 1))

/-- The cursor clamp of `Circuit.insert`:
`k = max(min(index if index >= 0 else len + index, len), 0)`. -/
def effectiveInsertIndex (len : Nat) (index : Int) : Nat :=
  (max (min (if 0 ≤ index then index else (len : Int) + index) (len : Int)) 0).toNat

/-- `Circuit.insert` (unconstrained device: the `validate_*` hooks are no-ops,
and the op tree arrives already flattened to moments and operations). -/
def Circuit.insert (c : Circuit) (index : Int) (tree : List MoOrOp)
    (strategy : Strategy) : Except Err (Circuit × Nat) :=
  match insertLoop strategy tree c.moments (effectiveInsertIndex c.length index) with
  | .error e => .error e
  | .ok (ms, k) => .ok (⟨ms⟩, k)

/-- The moment index `_pick_or_create_inserted_op_moment_index` chooses for a
single bare operation inserted at `index` — the index at which the occurrence
is placed. -/
def Circuit.pickPlacementIndex (c : Circuit) (index : Int) (op : Op)
    (s : Strategy) : Nat :=
  (pickOrCreate c.moments (effectiveInsertIndex c.length index) op s).2

theorem getM_out {ms : List Moment} {k : Nat} (h : ms.length ≤ k) : getM ms k = ⟨[]⟩ :=
  List.getD_eq_default _ _ h

theorem getM_append_left {l₁ l₂ : List Moment} {k : Nat} (h : k < l₁.length) :
    getM (l₁ ++ l₂) k = getM l₁ k :=
  List.getD_append _ _ _ _ h

theorem getM_append_right {l₁ l₂ : List Moment} {k : Nat} (h : l₁.length ≤ k) :
    getM (l₁ ++ l₂) k = getM l₂ (k - l₁.length) :=
  List.getD_append_right _ _ _ _ h

theorem getM_replicate (n k : Nat) : getM (List.replicate n ⟨[]⟩) k = ⟨[]⟩ := by
  unfold getM
  rcases Nat.lt_or_ge k n with h | h
  · rw [List.getD_eq_getElem _ _ (by simpa using h)]
    simp
  · exact List.getD_eq_default _ _ (by simpa using h)

theorem getM_set_ne {ms : List Moment} {j k : Nat} (m : Moment) (h : j ≠ k) :
    getM (ms.set j m) k = getM ms k := by
  unfold getM
  rw [List.getD_eq_getElem?_getD, List.getD_eq_getElem?_getD, List.getElem?_set_ne h]

theorem getM_set_self {ms : List Moment} {j : Nat} (m : Moment) (h : j < ms.length) :
    getM (ms.set j m) j = m := by
  unfold getM
  rw [List.getD_eq_getElem?_getD, List.getElem?_set_eq_of_lt m h]
  rfl

theorem withOperation_error {m : Moment} {op : Op} {e : Err}
    (h : m.withOperation op = .error e) : e = .overlap := by
  unfold Moment.withOperation at h
  split at h
  · exact (Except.error.injEq _ _).mp h.symm
  · exact absurd h (by simp)

theorem lastBlocker_lt (ms : List Moment) (op : Op) :
    ∀ k j, lastBlocker ms op k = some j → j < k := by
  intro k
  induction k with
  | zero => intro j h; simp [lastBlocker] at h
  | succ k ih =>
    intro j h
    rw [lastBlocker] at h
    split at h
    · cases h; exact Nat.lt_succ_self _
    · exact Nat.lt_succ_of_lt (ih j h)

theorem lastBlocker_blocks (ms : List Moment) (op : Op) :
    ∀ k j, lastBlocker ms op k = some j → momentBlocks (getM ms j) op = true := by
  intro k
  induction k with
  | zero => intro j h; simp [lastBlocker] at h
  | succ k ih =>
    intro j h
    rw [lastBlocker] at h
    split at h
    · cases h; assumption
    · exact ih j h

theorem lastBlocker_max (ms : List Moment) (op : Op) :
    ∀ k j, lastBlocker ms op k = some j →
      ∀ i, j < i → i < k → momentBlocks (getM ms i) op = false := by
  intro k
  induction k with
  | zero => intro j h; simp [lastBlocker] at h
  | succ k ih =>
    intro j h i hj hi
    rw [lastBlocker] at h
    split at h
    · cases h; omega
    · rcases Nat.lt_succ_iff_lt_or_eq.mp hi with hik | hik
      · exact ih j h i hj hik
      · subst hik; simpa using (by assumption : ¬ momentBlocks (getM ms i) op = true)

theorem lastBlocker_none (ms : List Moment) (op : Op) :
    ∀ k, lastBlocker ms op k = none →
      ∀ i, i < k → momentBlocks (getM ms i) op = false := by
  intro k
  induction k with
  | zero => intro _ i hi; omega
  | succ k ih =>
    intro h i hi
    rw [lastBlocker] at h
    split at h
    · cases h
    · rcases Nat.lt_succ_iff_lt_or_eq.mp hi with hik | hik
      · exact ih h i hik
      · subst hik; simpa using (by assumption : ¬ momentBlocks (getM ms i) op = true)

theorem lastBlocker_ge_of_blocks (ms : List Moment) (op : Op) :
    ∀ k j, j < k → momentBlocks (getM ms j) op = true →
      ∃ x, lastBlocker ms op k = some x ∧ j ≤ x := by
  intro k
  induction k with
  | zero => intro j hj; omega
  | succ k ih =>
    intro j hj hb
    rw [lastBlocker]
    split
    · exact ⟨k, rfl, Nat.lt_succ_iff.mp hj⟩
    · have hjk : j < k := by
        rcases Nat.lt_succ_iff_lt_or_eq.mp hj with h | h
        · exact h
        · subst h; exact absurd hb (by assumption)
      exact ih j hjk hb

theorem notBlocks_operatesOn {ms : List Moment} {op : Op} {i : Nat}
    (h : momentBlocks (getM ms i) op = false) :
    (getM ms i).operatesOn op.qubits = false := by
  unfold momentBlocks at h
  simp only [Bool.or_eq_false_iff] at h
  exact h.1.1

theorem notBlocks_canAdd {ms : List Moment} {op : Op} {i : Nat}
    (h : momentBlocks (getM ms i) op = false) : canAddOpAt ms i op = true := by
  have h1 := notBlocks_operatesOn h
  unfold canAddOpAt
  split
  · rw [h1]; rfl
  · rfl

theorem prevAvailAux_eq (ms : List Moment) (op : Op) :
    ∀ (k last : Nat), prevAvailAux ms op k last =
      match lastBlocker ms op k with
      | some j => if j + 1 = k then last else j + 1
      | none => if k = 0 then last else 0 := by
  intro k
  induction k with
  | zero => intro last; rfl
  | succ k ih =>
    intro last
    by_cases hb : momentBlocks (getM ms k) op = true
    · simp [prevAvailAux, lastBlocker, hb]
    · have hb' : momentBlocks (getM ms k) op = false := by simpa using hb
      simp only [prevAvailAux, lastBlocker, hb', Bool.false_eq_true, if_false,
        notBlocks_canAdd hb', if_true, ih k]
      cases hlb : lastBlocker ms op k with
      | none => by_cases hk : k = 0 <;> simp [hk]
      | some j =>
        have hj : j < k := lastBlocker_lt ms op k j hlb
        have h₁ : ¬ (j + 1 = k + 1) := by omega
        by_cases h₂ : j + 1 = k <;> simp [h₁, h₂]

theorem prevMomentAvailable_eq (ms : List Moment) (op : Op) (e : Nat) :
    prevMomentAvailable ms op e =
      match lastBlocker ms op e with
      | some j => j + 1
      | none => 0 := by
  unfold prevMomentAvailable
  rw [prevAvailAux_eq]
  cases hlb : lastBlocker ms op e with
  | none => by_cases he : e = 0 <;> simp [he]
  | some j => by_cases h : j + 1 = e <;> simp [h]

theorem prevMomentAvailable_le (ms : List Moment) (op : Op) (e : Nat) :
    prevMomentAvailable ms op e ≤ e := by
  rw [prevMomentAvailable_eq]
  cases hlb : lastBlocker ms op e with
  | none => exact Nat.zero_le _
  | some j => exact lastBlocker_lt ms op e j hlb

theorem padTo_length (ms : List Moment) (p : Nat) :
    (padTo ms p).length = max ms.length (p + 1) := by
  unfold padTo
  simp only [List.length_append, List.length_replicate]
  omega

theorem padTo_getM_lt {ms : List Moment} {j p : Nat} (h : j < ms.length) :
    getM (padTo ms p) j = getM ms j :=
  getM_append_left h

theorem padTo_getM_ge {ms : List Moment} {p : Nat} (h : ms.length ≤ p) :
    getM (padTo ms p) p = ⟨[]⟩ := by
  unfold padTo
  rw [getM_append_right h, getM_replicate]

/-- The moment chosen by the EARLIEST branch (when the cursor itself is usable)
never operates on the op's qubits: the closed form of the backward scan lands
just above the last blocking moment. -/
theorem earliest_target_free (ms : List Moment) (op : Op) (k : Nat)
    (hk : canAddOpAt ms k op = true) :
    (getM (padTo ms (prevMomentAvailable ms op k))
        (prevMomentAvailable ms op k)).operatesOn op.qubits = false := by
  set p := prevMomentAvailable ms op k with hp
  rcases Nat.lt_or_ge p ms.length with hlen | hlen
  · rw [padTo_getM_lt hlen]
    have hple : p ≤ k := hp ▸ prevMomentAvailable_le ms op k
    rcases Nat.lt_or_eq_of_le hple with hpk | hpk
    · have hnb : momentBlocks (getM ms p) op = false := by
        rw [prevMomentAvailable_eq] at hp
        cases hlb : lastBlocker ms op k with
        | none => exact lastBlocker_none ms op k hlb p hpk
        | some j =>
          have hpj : p = j + 1 := by rw [hp, hlb]
          exact lastBlocker_max ms op k j hlb p (by omega) hpk
      exact notBlocks_operatesOn hnb
    · unfold canAddOpAt at hk
      rw [hpk] at hlen
      rw [if_pos hlen, ← hpk] at hk
      simpa using hk
  · rw [padTo_getM_ge hlen]
    rfl

/-- The fresh empty moment spliced in by the NEW branch is free for any op. -/
theorem pickNew_target_free (ms : List Moment) (k : Nat) (qs : List Nat) :
    (getM (padTo (listInsertAt ms k ⟨[]⟩) k) k).operatesOn qs = false := by
  rcases le_or_lt k ms.length with hk | hk
  · have hlen : k < (listInsertAt ms k ⟨[]⟩).length := by
      unfold listInsertAt
      simp only [List.length_append, List.length_cons, List.length_take, List.length_drop]
      omega
    rw [padTo_getM_lt hlen]
    have htk : (ms.take k).length ≤ k := by simp [List.length_take]
    rw [show getM (listInsertAt ms k ⟨[]⟩) k = getM (⟨[]⟩ :: ms.drop k) (k - (ms.take k).length)
        from getM_append_right htk]
    have : k - (ms.take k).length = 0 := by simp [List.length_take]; omega
    rw [this]
    rfl
  · have hlen : (listInsertAt ms k ⟨[]⟩).length ≤ k := by
      unfold listInsertAt
      simp only [List.length_append, List.length_cons, List.length_take, List.length_drop]
      omega
    rw [padTo_getM_ge hlen]
    rfl

/-- The moment chosen by the INLINE branch is free for the op. -/
theorem pickInline_target_free (ms : List Moment) (k : Nat) (o : Op) :
    (getM (padTo (pickInline ms k o).1 (pickInline ms k o).2)
        (pickInline ms k o).2).operatesOn o.qubits = false := by
  unfold pickInline
  split
  · next hcond =>
    show (getM (padTo ms (k - 1)) (k - 1)).operatesOn o.qubits = false
    rw [padTo_getM_lt hcond.2.1]
    have h3 := hcond.2.2
    unfold canAddOpAt at h3
    rw [if_pos hcond.2.1] at h3
    simpa using h3
  · exact pickNew_target_free ms k o.qubits

/-- The moment `_pick_or_create_inserted_op_moment_index` chooses is always
free for the op, for every strategy. -/
theorem pickOrCreate_target_free (ms : List Moment) (k : Nat) (o : Op) (s : Strategy) :
    (getM (padTo (pickOrCreate ms k o s).1 (pickOrCreate ms k o s).2)
        (pickOrCreate ms k o s).2).operatesOn o.qubits = false := by
  cases s with
  | NEW => exact pickNew_target_free ms k o.qubits
  | NEW_THEN_INLINE => exact pickNew_target_free ms k o.qubits
  | INLINE => exact pickInline_target_free ms k o
  | EARLIEST =>
    show (getM (padTo (pickEarliest ms k o).1 (pickEarliest ms k o).2)
        (pickEarliest ms k o).2).operatesOn o.qubits = false
    unfold pickEarliest
    split
    · next hcan => exact earliest_target_free ms o k hcan
    · exact pickInline_target_free ms k o

theorem withOperation_ok {m : Moment} {o : Op}
    (h : m.operatesOn o.qubits = false) :
    m.withOperation o = .ok ⟨m.ops ++ [o]⟩ := by
  unfold Moment.withOperation
  rw [if_neg (by rw [h]; exact Bool.false_ne_true)]

/-- `Circuit.insert` always succeeds under the unconstrained device: the chosen
moment is always free and moments are spliced verbatim. -/
theorem insertLoop_ok (tree : List MoOrOp) :
    ∀ (s : Strategy) (ms : List Moment) (k : Nat),
      ∃ r, insertLoop s tree ms k = .ok r := by
  induction tree with
  | nil => intro s ms k; exact ⟨(ms, k), rfl⟩
  | cons x rest ih =>
    intro s ms k
    cases x with
    | mom m => rw [insertLoop]; exact ih s _ _
    | op o =>
      have hw := withOperation_ok (pickOrCreate_target_free ms k o s)
      simp only [insertLoop, hw]
      exact ih _ _ _

/-- C9: `Circuit.insert` accepts any integer index.  The effective cursor
equals the claim's description — a negative index is first interpreted as
`len + index`, and the result is clamped into `[0, len]` — the cursor is
always in range, and the call never fails (in particular never with an
out-of-range index error). -/
theorem insert_accepts_any_index (c : Circuit) (index : Int) (tree : List MoOrOp)
    (s : Strategy) :
    effectiveInsertIndex c.length index =
      (min (max (if index < 0 then (c.length : Int) + index else index) 0)
        (c.length : Int)).toNat
    ∧ effectiveInsertIndex c.length index ≤ c.length
    ∧ ∃ r, c.insert index tree s = .ok r := by
  refine ⟨?_, ?_, ?_⟩
  · unfold effectiveInsertIndex
    rcases lt_or_le index 0 with h | h
    · rw [if_neg (by omega), if_pos h]
      omega
    · rw [if_pos h, if_neg (by omega)]
      omega
  · unfold effectiveInsertIndex
    rcases lt_or_le index 0 with h | h
    · rw [if_neg (by omega)]
      omega
    · rw [if_pos h]
      omega
  · unfold Circuit.insert
    obtain ⟨r, hr⟩ := insertLoop_ok tree s c.moments (effectiveInsertIndex c.length index)
    rw [hr]
    exact ⟨_, rfl⟩

/-- The result of appending one bare operation with EARLIEST (`insert` at
`len(circuit)`): the op lands at `prevMomentAvailable`, padding with empty
moments if needed, and the returned cursor is `max len (p + 1)`. -/
theorem insert_append_one (c : Circuit) (op : Op) :
    c.insert (c.length : Int) [.op op] .EARLIEST =
      .ok (⟨(padTo c.moments (prevMomentAvailable c.moments op c.length)).set
              (prevMomentAvailable c.moments op c.length)
              ⟨(getM (padTo c.moments (prevMomentAvailable c.moments op c.length))
                  (prevMomentAvailable c.moments op c.length)).ops ++ [op]⟩⟩,
            max c.length (prevMomentAvailable c.moments op c.length + 1)) := by
  unfold Circuit.insert
  have hk : effectiveInsertIndex c.length (c.length : Int) = c.length := by
    unfold effectiveInsertIndex
    rw [if_pos (by omega)]
    omega
  rw [hk]
  have hcan : canAddOpAt c.moments c.length op = true := by
    unfold canAddOpAt
    rw [if_neg (by have hml : c.length = c.moments.length := rfl; omega)]
  have hpick : pickOrCreate c.moments c.length op .EARLIEST =
      (c.moments, prevMomentAvailable c.moments op c.length) := by
    show pickEarliest c.moments c.length op = _
    unfold pickEarliest
    rw [if_pos hcan]
  have hfree := pickOrCreate_target_free c.moments c.length op .EARLIEST
  rw [hpick] at hfree
  have hw := withOperation_ok hfree
  simp only [insertLoop, hpick, hw]

/-- At an append position, the placement index chosen for a bare EARLIEST
insert is exactly `prevMomentAvailable`. -/
theorem pickPlacementIndex_append (c : Circuit) (op : Op) :
    c.pickPlacementIndex (c.length : Int) op .EARLIEST =
      prevMomentAvailable c.moments op c.length := by
  unfold Circuit.pickPlacementIndex
  have hk : effectiveInsertIndex c.length (c.length : Int) = c.length := by
    unfold effectiveInsertIndex
    rw [if_pos (by omega)]
    omega
  rw [hk]
  show (pickEarliest c.moments c.length op).2 = _
  unfold pickEarliest
  rw [if_pos (by
    unfold canAddOpAt
    rw [if_neg (by have hml : c.length = c.moments.length := rfl; omega)])]

/-- C3: appending an operation twice with EARLIEST never places the second
occurrence at an earlier moment index than the first.  Both appends succeed,
and the placement index (the value of
`_pick_or_create_inserted_op_moment_index`) is monotone. -/
theorem earliest_insert_twice_monotone (c : Circuit) (op : Op) :
    ∃ c₁ k₁, c.insert (c.length : Int) [.op op] .EARLIEST = .ok (c₁, k₁) ∧
      ∃ c₂ k₂, c₁.insert (c₁.length : Int) [.op op] .EARLIEST = .ok (c₂, k₂) ∧
        c.pickPlacementIndex (c.length : Int) op .EARLIEST ≤
          c₁.pickPlacementIndex (c₁.length : Int) op .EARLIEST := by
  set p := prevMomentAvailable c.moments op c.length with hpdef
  set m₁ : Moment := ⟨(getM (padTo c.moments p) p).ops ++ [op]⟩ with hm₁
  set c₁ : Circuit := ⟨(padTo c.moments p).set p m₁⟩ with hc₁
  refine ⟨c₁, max c.length (p + 1), insert_append_one c op, ?_⟩
  obtain ⟨r, hr⟩ := insertLoop_ok [.op op] .EARLIEST c₁.moments
    (effectiveInsertIndex c₁.length (c₁.length : Int))
  refine ⟨⟨r.1⟩, r.2, ?_, ?_⟩
  · unfold Circuit.insert
    rw [hr]
  · rw [pickPlacementIndex_append, pickPlacementIndex_append, ← hpdef]
    rcases hlb : lastBlocker c.moments op c.length with _ | j
    · have hp₁ : p = 0 := by rw [hpdef, prevMomentAvailable_eq, hlb]
      rw [hp₁]
      exact Nat.zero_le _
    · have hp₁ : p = j + 1 := by rw [hpdef, prevMomentAvailable_eq, hlb]
      have hjlt : j < c.length := lastBlocker_lt c.moments op c.length j hlb
      have hjb : momentBlocks (getM c.moments j) op = true :=
        lastBlocker_blocks c.moments op c.length j hlb
      have hgb : momentBlocks (getM c₁.moments j) op = true := by
        rw [hc₁]
        show momentBlocks (getM ((padTo c.moments p).set p m₁) j) op = true
        rw [getM_set_ne m₁ (by omega), padTo_getM_lt hjlt]
        exact hjb
      have hlen₁ : j < c₁.moments.length := by
        rw [hc₁]
        show j < ((padTo c.moments p).set p m₁).length
        rw [List.length_set, padTo_length]
        have hml : c.length = c.moments.length := rfl
        omega
      obtain ⟨x, hx, hjx⟩ :=
        lastBlocker_ge_of_blocks c₁.moments op c₁.moments.length j hlen₁ hgb
      have hp₂ : prevMomentAvailable c₁.moments op c₁.length = x + 1 := by
        rw [prevMomentAvailable_eq, show c₁.length = c₁.moments.length from rfl, hx]
      rw [hp₂, hp₁]
      omega

/-- The `for i, op in removals` loop of `Circuit.batch_remove`, acting on the
private copy's moment list.  Python raises `IndexError` on a bad moment index,
`ValueError` when the operation is absent, and rebuilds the moment through the
validating `Moment(...)` constructor. -/
def batchRemoveLoop (ms : List Moment) : List (Int × Op) → Except Err (List Moment)
  | [] => .ok ms
  | (i, op) :: rest =>
    match pyGet ms i with
    | .error e => .error e
    | .ok m =>
      if op ∈ m.ops then
        match mkMoment (m.ops.filter fun o => o ≠ op) with
        | .error e => .error e
        | .ok m₂ => batchRemoveLoop (pySet ms i m₂) rest
      else .error .valueError

/-- `Circuit.batch_remove`: edits run on a copy; `self._moments` is assigned
only after the whole loop (and the no-op `validate_circuit`) succeeded.  The
pair is (raised outcome, state of `self` after the call). -/
def Circuit.batchRemove (c : Circuit) (removals : List (Int × Op)) :
    Except Err Unit × Circuit :=
  match batchRemoveLoop c.moments removals with
  | .error e => (.error e, c)
  | .ok ms => (.ok (), ⟨ms⟩)

/-- The loop of `Circuit.batch_replace`, on the private copy. -/
def batchReplaceLoop (ms : List Moment) : List (Int × Op × Op) → Except Err (List Moment)
  | [] => .ok ms
  | (i, op, newOp) :: rest =>
    match pyGet ms i with
    | .error e => .error e
    | .ok m =>
      if op ∈ m.ops then
        match mkMoment (m.ops.map fun o => if o = op then newOp else o) with
        | .error e => .error e
        | .ok m₂ => batchReplaceLoop (pySet ms i m₂) rest
      else .error .valueError

/-- `Circuit.batch_replace`: copy, edit, commit-on-success. -/
def Circuit.batchReplace (c : Circuit) (replacements : List (Int × Op × Op)) :
    Except Err Unit × Circuit :=
  match batchReplaceLoop c.moments replacements with
  | .error e => (.error e, c)
  | .ok ms => (.ok (), ⟨ms⟩)

/-- One step of the stable insertion sort modelling Python's stable
`sorted(insertions, key=lambda e: e[0])`: the inserted element goes before
the first entry with a key `≥` its own, keeping the original order of equal
keys. -/
def insYounger (x : Int × List MoOrOp) :
    List (Int × List MoOrOp) → List (Int × List MoOrOp)
  | [] => [x]
  | y :: ys => if y.1 < x.1 then y :: insYounger x ys else x :: y :: ys

/-- Stable sort of the insertion list by target index. -/
def stableSortIns : List (Int × List MoOrOp) → List (Int × List MoOrOp)
  | [] => []
  | x :: xs => insYounger x (stableSortIns xs)

/-- `_group_until_different` on the sorted insertion list (`itertools.groupby`):
runs of adjacent entries with equal keys become one group of their values. -/
def groupAdjacent : List (Int × List MoOrOp) → List (Int × List (List MoOrOp))
  | [] => []
  | (k, v) :: rest =>
    match groupAdjacent rest with
    | [] => [(k, [v])]
    | (k₂, vs) :: gs =>
      if k = k₂ then (k, v :: vs) :: gs else (k, [v]) :: (k₂, vs) :: gs

/-- The `for i, group in groups` loop of `Circuit.batch_insert`: each group is
inserted (in reverse input order) with EARLIEST at `i + shift`, and `shift`
grows by `next_index - insert_index` whenever the returned cursor moved past
the target. -/
def batchInsertLoop : List (Int × List (List MoOrOp)) → List Moment → Int →
    Except Err (List Moment)
  | [], ms, _ => .ok ms
  | (i, group) :: rest, ms, shift =>
    let insertIndex : Int := i + shift
    match Circuit.insert ⟨ms⟩ insertIndex (group.reverse.flatMap id) .EARLIEST with
    | .error e => .error e
    | .ok (c₂, nextIndex) =>
      if (nextIndex : Int) > insertIndex then
        batchInsertLoop rest c₂.moments (shift + ((nextIndex : Int) - insertIndex))
      else
        batchInsertLoop rest c₂.moments shift

/-- `Circuit.batch_insert`: work on a copy, sort stably by index, group equal
indices, run the shift-tracking loop, commit on success. -/
def Circuit.batchInsert (c : Circuit) (insertions : List (Int × List MoOrOp)) :
    Except Err Unit × Circuit :=
  match batchInsertLoop (groupAdjacent (stableSortIns insertions)) c.moments 0 with
  | .error e => (.error e, c)
  | .ok ms => (.ok (), ⟨ms⟩)

/-- C1: batch edits are atomic.  Whenever `batch_remove`, `batch_replace` or
`batch_insert` raises, the circuit left behind equals the pre-call circuit:
each loop runs on a private copy and `self._moments` is only assigned after
full success. -/
theorem batch_edit_atomicity (c : Circuit) (removals : List (Int × Op))
    (replacements : List (Int × Op × Op)) (insertions : List (Int × List MoOrOp))
    (e₁ e₂ e₃ : Err) :
    ((c.batchRemove removals).1 = .error e₁ → (c.batchRemove removals).2 = c) ∧
    ((c.batchReplace replacements).1 = .error e₂ → (c.batchReplace replacements).2 = c) ∧
    ((c.batchInsert insertions).1 = .error e₃ → (c.batchInsert insertions).2 = c) := by
  refine ⟨?_, ?_, ?_⟩
  · intro h
    unfold Circuit.batchRemove
    cases hx : batchRemoveLoop c.moments removals with
    | error e => rfl
    | ok ms =>
      unfold Circuit.batchRemove at h
      rw [hx] at h
      exact absurd h (by simp)
  · intro h
    unfold Circuit.batchReplace
    cases hx : batchReplaceLoop c.moments replacements with
    | error e => rfl
    | ok ms =>
      unfold Circuit.batchReplace at h
      rw [hx] at h
      exact absurd h (by simp)
  · intro h
    unfold Circuit.batchInsert
    cases hx : batchInsertLoop (groupAdjacent (stableSortIns insertions)) c.moments 0 with
    | error e => rfl
    | ok ms =>
      unfold Circuit.batchInsert at h
      rw [hx] at h
      exact absurd h (by simp)

/-- Witness for C1 at concrete failing edits: removing from and replacing in an
empty circuit raises `IndexError` and leaves the circuit unchanged. -/
theorem batch_edit_atomicity_witness :
    (Circuit.batchRemove ⟨[]⟩ [((0 : Int), ⟨0, [0], [], []⟩)]).2 = ⟨[]⟩ ∧
    (Circuit.batchReplace ⟨[]⟩ [((0 : Int), ⟨0, [0], [], []⟩, ⟨1, [0], [], []⟩)]).2 = ⟨[]⟩ :=
  ⟨(batch_edit_atomicity ⟨[]⟩ [((0 : Int), ⟨0, [0], [], []⟩)] [] [] .indexError
      .indexError .indexError).1 (by rfl),
   (batch_edit_atomicity ⟨[]⟩ [] [((0 : Int), ⟨0, [0], [], []⟩, ⟨1, [0], [], []⟩)] []
      .indexError .indexError .indexError).2.1 (by rfl)⟩

/-- The inner `while i < end and cannot_add(...)` advance of
`Circuit.insert_into_range`: first index in `[i, endN)` whose moment does not
operate on the op's qubits, or `endN` when every slot is occupied. -/
def iirAdvance (ms : List Moment) (op : Op) (i endN : Nat) : Nat :=
  match (List.range (endN - i)).find? (fun d => ¬ (getM ms (i + d)).operatesOn op.qubits) with
  | some d => i + d
  | none => endN

/-- The placement loop of `Circuit.insert_into_range`: walk the operations,
inline each at the first free slot at or after the running cursor, and stop
(returning the untouched remainder) once the cursor reaches `endN`.  The write
uses `with_operation`, whose disjointness check is exactly the `cannot_add`
guard that `iirAdvance` just established false. -/
def iirPlace (endN : Nat) : List Op → List Moment → Nat → (List Moment × List Op)
  | [], ms, _ => (ms, [])
  | op :: rest, ms, i =>
    let i₂ := iirAdvance ms op i endN
    if i₂ ≥ endN then (ms, op :: rest)
    else iirPlace endN rest (ms.set i₂ ⟨(getM ms i₂).ops ++ [op]⟩) i₂

/-- `Circuit.insert_into_range`.  The `IndexError` guard
`if not 0 <= start <= end <= len(self)` runs before any mutation; leftover
operations are appended through `self.insert(end, …)` with the default
EARLIEST strategy (which, by `insertLoop_ok`, cannot fail). -/
def Circuit.insertIntoRange (c : Circuit) (ops : List Op) (start endI : Int) :
    Except Err Nat × Circuit :=
  if ¬ (0 ≤ start ∧ start ≤ endI ∧ endI ≤ (c.length : Int)) then (.error .indexError, c)
  else
    let placed := iirPlace endI.toNat ops c.moments start.toNat
    match placed.2 with
    | [] => (.ok endI.toNat, ⟨placed.1⟩)
    | rem =>
      match Circuit.insert ⟨placed.1⟩ endI (rem.map .op) .EARLIEST with
      | .error e => (.error e, ⟨placed.1⟩)
      | .ok (c₃, k) => (.ok k, c₃)

/-- C5: `insert_into_range` called with indices violating
`0 ≤ start ≤ end ≤ len` fails with the range error and leaves the circuit
unmodified. -/
theorem insert_into_range_invalid (c : Circuit) (ops : List Op) (start endI : Int)
    (h : ¬ (0 ≤ start ∧ start ≤ endI ∧ endI ≤ (c.length : Int))) :
    (c.insertIntoRange ops start endI).1 = .error .indexError ∧
    (c.insertIntoRange ops start endI).2 = c := by
  unfold Circuit.insertIntoRange
  rw [if_pos h]
  exact ⟨rfl, rfl⟩

/-- Witness for C5: `start = 2 > end = 1` on a one-moment circuit. -/
theorem insert_into_range_invalid_witness :
    (Circuit.insertIntoRange ⟨[⟨[]⟩]⟩ [] 2 1).1 = .error .indexError ∧
    (Circuit.insertIntoRange ⟨[⟨[]⟩]⟩ [] 2 1).2 = ⟨[⟨[]⟩]⟩ :=
  insert_into_range_invalid ⟨[⟨[]⟩]⟩ [] 2 1 (by decide)


/-- Reference semantics written from the claim's words for the index-drift
rule: identical grouping and reversal, but later groups are shifted by the
number of moments the earlier insertion added (`len after - len before`)
instead of by the cursor advance. -/
def batchInsertGrowthLoop : List (Int × List (List MoOrOp)) → List Moment → Int →
    Except Err (List Moment)
  | [], ms, _ => .ok ms
  | (i, group) :: rest, ms, shift =>
    match Circuit.insert ⟨ms⟩ (i + shift) (group.reverse.flatMap id) .EARLIEST with
    | .error e => .error e
    | .ok (c₂, _) =>
      batchInsertGrowthLoop rest c₂.moments
        (shift + ((c₂.length : Int) - (ms.length : Int)))

/-- `batch_insert` as the claim describes it: shift-by-growth. -/
def Circuit.batchInsertGrowthShift (c : Circuit)
    (insertions : List (Int × List MoOrOp)) : Except Err Unit × Circuit :=
  match batchInsertGrowthLoop (groupAdjacent (stableSortIns insertions)) c.moments 0 with
  | .error e => (.error e, c)
  | .ok ms => (.ok (), ⟨ms⟩)

/-- Counterexample to C2's index-drift rule.  On the circuit
`[{g0(q0)}, {}, {}, {}, {g4(q0)}]` with insertions
`[(1, g1(q0)), (1, g2(q0)), (2, g3(q0))]`, the group at index 1 fills two
existing empty moments without growing the list (growth 0), while the
insertion cursor advances from 1 to 3 (shift 2).  The code therefore inserts
`g3` at index 4 (landing inline at moment 3), whereas the claim's growth rule
would insert it at index 2 (forcing a fresh moment): the results differ. -/
theorem batch_insert_shift_counterexample :
    (Circuit.batchInsert
        ⟨[⟨[⟨0, [0], [], []⟩]⟩, ⟨[]⟩, ⟨[]⟩, ⟨[]⟩, ⟨[⟨4, [0], [], []⟩]⟩]⟩
        [((1 : Int), [.op ⟨1, [0], [], []⟩]), ((1 : Int), [.op ⟨2, [0], [], []⟩]),
          ((2 : Int), [.op ⟨3, [0], [], []⟩])]).2 ≠
    (Circuit.batchInsertGrowthShift
        ⟨[⟨[⟨0, [0], [], []⟩]⟩, ⟨[]⟩, ⟨[]⟩, ⟨[]⟩, ⟨[⟨4, [0], [], []⟩]⟩]⟩
        [((1 : Int), [.op ⟨1, [0], [], []⟩]), ((1 : Int), [.op ⟨2, [0], [], []⟩]),
          ((2 : Int), [.op ⟨3, [0], [], []⟩])]).2 := by
  decide

/-- Uniformly shift the target indices of the remaining groups. -/
def shiftKeys (d : Int) (l : List (Int × List (List MoOrOp))) :
    List (Int × List (List MoOrOp)) :=
  l.map fun p => (p.1 + d, p.2)

/-- Reference form of the `batch_insert` loop for the amended claim: instead of
carrying an accumulator, every later group's target index is shifted forward by
the cursor advance `max 0 (next_index - insert_index)` as soon as a group is
inserted. -/
def batchInsertCursorLoop : List (Int × List (List MoOrOp)) → List Moment →
    Except Err (List Moment)
  | [], ms => .ok ms
  | (i, group) :: rest, ms =>
    match Circuit.insert ⟨ms⟩ i (group.reverse.flatMap id) .EARLIEST with
    | .error e => .error e
    | .ok (c₂, nextIndex) =>
      batchInsertCursorLoop (shiftKeys (max 0 ((nextIndex : Int) - i)) rest) c₂.moments
termination_by l _ => l.length
decreasing_by simp [shiftKeys]

theorem shiftKeys_shiftKeys (d e : Int) (l : List (Int × List (List MoOrOp))) :
    shiftKeys d (shiftKeys e l) = shiftKeys (e + d) l := by
  induction l with
  | nil => rfl
  | cons p rest ih =>
    simp only [shiftKeys, List.map_cons] at *
    rw [ih]
    simp [Int.add_assoc]

theorem shiftKeys_zero (l : List (Int × List (List MoOrOp))) : shiftKeys 0 l = l := by
  induction l with
  | nil => rfl
  | cons p rest ih =>
    simp only [shiftKeys, List.map_cons] at *
    rw [ih]
    simp

theorem batchInsertLoop_eq_cursor (groups : List (Int × List (List MoOrOp))) :
    ∀ (ms : List Moment) (shift : Int),
      batchInsertLoop groups ms shift = batchInsertCursorLoop (shiftKeys shift groups) ms := by
  induction groups with
  | nil =>
    intro ms shift
    simp [batchInsertLoop, batchInsertCursorLoop, shiftKeys]
  | cons g rest ih =>
    intro ms shift
    obtain ⟨i, group⟩ := g
    rw [show shiftKeys shift ((i, group) :: rest) = (i + shift, group) :: shiftKeys shift rest
        from rfl]
    rw [batchInsertLoop, batchInsertCursorLoop]
    cases hI : Circuit.insert ⟨ms⟩ (i + shift) (group.reverse.flatMap id) .EARLIEST with
    | error e => simp [hI]
    | ok r =>
      obtain ⟨c₂, nextIndex⟩ := r
      simp only [hI]
      rw [shiftKeys_shiftKeys]
      by_cases hgt : (nextIndex : Int) > i + shift
      · rw [if_pos hgt, ih,
          show shift + ((nextIndex : Int) - (i + shift)) =
            shift + max 0 ((nextIndex : Int) - (i + shift)) from by omega]
      · have h0 : max 0 ((nextIndex : Int) - (i + shift)) = 0 := by omega
        rw [if_neg hgt, ih, h0, Int.add_zero]

/-- C2 (amended): `batch_insert` sorts the insertions stably by target index,
groups adjacent equal indices, inserts each group in reverse input order with
EARLIEST, and shifts every later group's target index forward by the advance
of the insertion cursor, `max 0 (next_index - insert_index)` — which can be
positive even when no moment was added (see
`batch_insert_shift_counterexample`). -/
theorem batch_insert_processing (c : Circuit) (insertions : List (Int × List MoOrOp)) :
    c.batchInsert insertions =
      match batchInsertCursorLoop (groupAdjacent (stableSortIns insertions)) c.moments with
      | .error e => (.error e, c)
      | .ok ms => (.ok (), ⟨ms⟩) := by
  unfold Circuit.batchInsert
  rw [batchInsertLoop_eq_cursor, shiftKeys_zero]

/-- `cirq.Alignment`. -/
inductive Alignment where
  | LEFT
  | RIGHT
  | FIRST
deriving DecidableEq, Repr

/-- `max([len(c) for c in circuits], default=0)`. -/
def maxLen (cs : List Circuit) : Nat :=
  cs.foldr (fun c acc => max c.length acc) 0

/-- The operations collected for slot `k` of `zip`: with LEFT alignment the
`k`-th moment of every input long enough, otherwise (the `else` branch, taken
for both RIGHT and FIRST) the `len(c) - n + k`-th moment of every input for
which that index is non-negative.  `cirq.Moment(...)` flattens the selected
moments into their operations. -/
def zipMomentOps (cs : List Circuit) (n : Nat) (k : Nat) (align : Alignment) : List Op :=
  match align with
  | .LEFT =>
    (cs.filterMap fun c => if k < c.length then some (getM c.moments k) else none).flatMap
      Moment.ops
  | _ =>
    (cs.filterMap fun c =>
        if 0 ≤ (c.length : Int) - (n : Int) + (k : Int) then
          some (getM c.moments ((c.length : Int) - (n : Int) + (k : Int)).toNat)
        else none).flatMap Moment.ops

/-- The `for k in range(n)` loop of `AbstractCircuit.zip`: each combined moment
is validated by the `Moment` constructor (collision means `ValueError`) and
appended verbatim to the result. -/
def zipLoop (cs : List Circuit) (n : Nat) (align : Alignment) :
    Nat → Nat → List Moment → Except Err (List Moment)
  | _, 0, acc => .ok acc
  | k, r + 1, acc =>
    match mkMoment (zipMomentOps cs n k align) with
    | .error e => .error e
    | .ok m => zipLoop cs n align (k + 1) r (acc ++ [m])

/-- `AbstractCircuit.zip`. -/
def Circuit.zip (cs : List Circuit) (align : Alignment) : Except Err Circuit :=
  match zipLoop cs (maxLen cs) align 0 (maxLen cs) [] with
  | .error e => .error e
  | .ok ms => .ok ⟨ms⟩

theorem zipLoop_length (cs : List Circuit) (n : Nat) (align : Alignment) :
    ∀ (r k : Nat) (acc ms : List Moment),
      zipLoop cs n align k r acc = .ok ms → ms.length = acc.length + r := by
  intro r
  induction r with
  | zero =>
    intro k acc ms h
    cases h
    omega
  | succ r ih =>
    intro k acc ms h
    rw [zipLoop] at h
    cases hm : mkMoment (zipMomentOps cs n k align) with
    | error e => rw [hm] at h; cases h
    | ok m =>
      rw [hm] at h
      have := ih (k + 1) (acc ++ [m]) ms h
      simp [List.length_append] at this
      omega

/-- C7: whenever `zip` succeeds, the result has exactly
`max(len(c) for c in circuits, default=0)` moments — one moment is appended
per loop iteration, for every alignment. -/
theorem zip_length (cs : List Circuit) (align : Alignment) (r : Circuit)
    (h : Circuit.zip cs align = .ok r) : r.length = maxLen cs := by
  unfold Circuit.zip at h
  cases hz : zipLoop cs (maxLen cs) align 0 (maxLen cs) [] with
  | error e => rw [hz] at h; cases h
  | ok ms =>
    rw [hz] at h
    cases h
    have := zipLoop_length cs (maxLen cs) align (maxLen cs) 0 [] ms hz
    simpa using this

/-- Witness for C7: zipping a 2-moment circuit with a 1-moment circuit
(LEFT alignment) succeeds and has `max 2 1 = 2` moments. -/
theorem zip_length_witness :
    Circuit.zip [⟨[⟨[]⟩, ⟨[⟨0, [0], [], []⟩]⟩]⟩, ⟨[⟨[⟨1, [1], [], []⟩]⟩]⟩] .LEFT =
      .ok ⟨[⟨[⟨1, [1], [], []⟩]⟩, ⟨[⟨0, [0], [], []⟩]⟩]⟩ ∧
    Circuit.length ⟨[⟨[⟨1, [1], [], []⟩]⟩, ⟨[⟨0, [0], [], []⟩]⟩]⟩ =
      maxLen [⟨[⟨[]⟩, ⟨[⟨0, [0], [], []⟩]⟩]⟩, ⟨[⟨[⟨1, [1], [], []⟩]⟩]⟩] :=
  ⟨by rfl,
   zip_length [⟨[⟨[]⟩, ⟨[⟨0, [0], [], []⟩]⟩]⟩, ⟨[⟨[⟨1, [1], [], []⟩]⟩]⟩] .LEFT
     ⟨[⟨[⟨1, [1], [], []⟩]⟩, ⟨[⟨0, [0], [], []⟩]⟩]⟩ (by rfl)⟩

/-- Dict `setdefault`: returns the existing value or inserts the given one. -/
def setdefaultF (f : List (Nat × Int)) (q : Nat) (v : Int) : List (Nat × Int) × Int :=
  match lookupF f q with
  | some v₀ => (f, v₀)
  | none => (f ++ [(q, v)], v)

/-- The `for op in c2[t]: for q in op.qubits` body of `_overlap_collision_time`:
record time `t`, and when the qubit was already seen from the other side
(negative stored value `~k`), cut the upper bound down to `t + ~k2`. -/
def octScanC2 (t : Nat) : List Nat → List (Nat × Int) → Nat → List (Nat × Int) × Nat
  | [], seen, ub => (seen, ub)
  | q :: qs, seen, ub =>
    let sd := setdefaultF seen q (t : Int)
    if sd.2 < 0 then octScanC2 t qs sd.1 (min ub (t + (-sd.2 - 1).toNat))
    else octScanC2 t qs sd.1 ub

/-- The `for op in c1[-1 - t]` body: record the bitwise complement `~t`, and on
seeing a qubit recorded from the `c2` side (non-negative value), cut the upper
bound down to `t + k2`. -/
def octScanC1 (t : Nat) : List Nat → List (Nat × Int) → Nat → List (Nat × Int) × Nat
  | [], seen, ub => (seen, ub)
  | q :: qs, seen, ub =>
    let sd := setdefaultF seen q (-(t : Int) - 1)
    if 0 ≤ sd.2 then octScanC1 t qs sd.1 (min ub (t + sd.2.toNat))
    else octScanC1 t qs sd.1 ub

/-- The `while t < upper_bound` loop of `_overlap_collision_time`; the fuel is
the initial upper bound, which the loop can never exceed since `t` increments
once per iteration and `upper_bound` only decreases. -/
def octLoop (c1 c2 : List Moment) : Nat → Nat → Nat → List (Nat × Int) → Nat
  | 0, _, ub, _ => ub
  | fuel + 1, t, ub, seen =>
    if t < ub then
      let s₂ :=
        if t < c2.length then octScanC2 t ((getM c2 t).ops.flatMap Op.qubits) seen ub
        else (seen, ub)
      let s₁ :=
        if t < c1.length then
          octScanC1 t ((getM c1 (c1.length - 1 - t)).ops.flatMap Op.qubits) s₂.1 s₂.2
        else s₂
      octLoop c1 c2 fuel (t + 1) s₁.2 s₁.1
    else ub

/-- `_overlap_collision_time`. -/
def overlapCollisionTime (c1 c2 : List Moment) (align : Alignment) : Nat :=
  let ub :=
    match align with
    | .LEFT => c1.length
    | .RIGHT => c2.length
    | .FIRST => min c1.length c2.length
  octLoop c1 c2 ub 0 ub []

/-- Point update of the moment buffer (the numpy buffer of `tetris_concat` is
modelled as a total function on `Int` with empty-moment default, the initial
circuit sitting at offset 0). -/
def bufSet (f : Int → Moment) (i : Int) (m : Moment) : Int → Moment :=
  fun j => if j = i then m else f j

/-- The `for k in range(n2): buf[k + c2_offset] = (buf[k + c2_offset] or
Moment()) + c2[k]` loop of `_tetris_concat_helper`.  The `+` merge cannot
collide by choice of the shift, matching the unchecked numpy write. -/
def bufPlace (c2Offset : Int) : List Moment → (Int → Moment) → Nat → (Int → Moment)
  | [], buf, _ => buf
  | m :: rest, buf, k =>
    bufPlace c2Offset rest
      (bufSet buf ((k : Int) + c2Offset) (Moment.merge (buf ((k : Int) + c2Offset)) m)) (k + 1)

/-- The accumulation loop of `tetris_concat` over the remaining circuits,
carrying `(buffer, offset, n_acc)` exactly as `_tetris_concat_helper` does. -/
def tetrisFold (align : Alignment) :
    List Circuit → (Int → Moment) → Int → Nat → (Int → Moment) × Int × Nat
  | [], buf, off, n => (buf, off, n)
  | c :: rest, buf, off, n =>
    let n2 := c.moments.length
    let bufSlice := (List.range n).map fun j => buf (off + (j : Int))
    let shift := overlapCollisionTime bufSlice c.moments align
    let c2Offset : Int := off + (n : Int) - (shift : Int)
    let buf₂ := bufPlace c2Offset c.moments buf 0
    tetrisFold align rest buf₂ (min off c2Offset) (max n (max n2 (n + n2 - shift)))

/-- `AbstractCircuit.tetris_concat`. -/
def Circuit.tetrisConcat (cs : List Circuit) (align : Alignment) : Circuit :=
  match cs with
  | [] => ⟨[]⟩
  | c₀ :: rest =>
    let buf₀ : Int → Moment := fun i =>
      if 0 ≤ i ∧ i < (c₀.length : Int) then getM c₀.moments i.toNat else ⟨[]⟩
    let res := tetrisFold align rest buf₀ 0 c₀.length
    ⟨(List.range res.2.2).map fun j => res.1 (res.2.1 + (j : Int))⟩

/-- C8: `tetris_concat` is not associative.  With the single-operation
circuits `A` (gate on qubit 0) and `B` (gate on qubit 1),
`f(f(A, B), A)` puts the merged `{A, B}` moment first while `f(A, f(B, A))`
puts the bare `A` moment first, so the two are different circuits. -/
theorem tetris_concat_not_associative :
    Circuit.tetrisConcat
        [Circuit.tetrisConcat [⟨[⟨[⟨0, [0], [], []⟩]⟩]⟩, ⟨[⟨[⟨1, [1], [], []⟩]⟩]⟩] .LEFT,
          ⟨[⟨[⟨0, [0], [], []⟩]⟩]⟩] .LEFT ≠
    Circuit.tetrisConcat
        [⟨[⟨[⟨0, [0], [], []⟩]⟩]⟩,
          Circuit.tetrisConcat [⟨[⟨[⟨1, [1], [], []⟩]⟩]⟩, ⟨[⟨[⟨0, [0], [], []⟩]⟩]⟩] .LEFT] .LEFT := by
  decide

theorem intRange_succ (lo : Int) (cnt : Nat) :
    (List.range (cnt + 1)).map (fun i : Nat => lo + (i : Int)) =
      lo :: (List.range cnt).map (fun i : Nat => (lo + 1) + (i : Int)) := by
  rw [List.range_succ_eq_map, List.map_cons, List.map_map]
  have hfun : ((fun i : Nat => lo + (i : Int)) ∘ Nat.succ) = fun i : Nat => (lo + 1) + (i : Int) := by
    funext i
    simp [Nat.succ_eq_add_one]
    ring
  rw [hfun]
  norm_num

theorem find?_intRange_some (p : Int → Bool) :
    ∀ (cnt : Nat) (lo m : Int),
      ((List.range cnt).map (fun i : Nat => lo + (i : Int))).find? p = some m →
      lo ≤ m ∧ m < lo + cnt ∧ p m = true ∧ ∀ j, lo ≤ j → j < m → p j = false := by
  intro cnt
  induction cnt with
  | zero => intro lo m h; simp at h
  | succ cnt ih =>
    intro lo m h
    rw [intRange_succ] at h
    by_cases hp : p lo = true
    · rw [List.find?_cons_of_pos _ hp] at h
      cases h
      refine ⟨le_refl _, by push_cast; omega, hp, ?_⟩
      intro j h₁ h₂
      omega
    · rw [List.find?_cons_of_neg _ (by simpa using hp)] at h
      obtain ⟨h₁, h₂, h₃, h₄⟩ := ih (lo + 1) m h
      refine ⟨by omega, by push_cast at h₂ ⊢; omega, h₃, ?_⟩
      intro j hj₁ hj₂
      rcases eq_or_lt_of_le hj₁ with hj | hj
      · rw [hj] at hp
        simpa using hp
      · exact h₄ j (by omega) hj₂

theorem find?_intRange_none (p : Int → Bool) :
    ∀ (cnt : Nat) (lo : Int),
      ((List.range cnt).map (fun i : Nat => lo + (i : Int))).find? p = none →
      ∀ j, lo ≤ j → j < lo + cnt → p j = false := by
  intro cnt
  induction cnt with
  | zero => intro lo _ j h₁ h₂; omega
  | succ cnt ih =>
    intro lo h j h₁ h₂
    rw [intRange_succ] at h
    by_cases hp : p lo = true
    · rw [List.find?_cons_of_pos _ hp] at h
      cases h
    · rw [List.find?_cons_of_neg _ (by simpa using hp)] at h
      rcases eq_or_lt_of_le h₁ with hj | hj
      · rw [hj] at hp
        simpa using hp
      · exact ih (lo + 1) h j (by omega) (by push_cast at h₂ ⊢; omega)

theorem nextMOO_someArg (c : Circuit) (qs : List Nat) (start d : Int) :
    c.nextMomentOperatingOn qs start (some d) =
      if d < 0 then .error .valueError
      else .ok (c.firstMomentOperatingOn qs (intRange start (min d ((c.length : Int) - start)))) :=
  rfl

theorem nextMOO_noneArg (c : Circuit) (qs : List Nat) (start : Int) :
    c.nextMomentOperatingOn qs start none = .ok (c.nextMomentOn qs start) := rfl

theorem hasOpAt_true_iff (c : Circuit) (j : Int) (qs : List Nat) :
    c.hasOpAt j qs = true ↔
      0 ≤ j ∧ j < (c.length : Int) ∧ (getM c.moments j.toNat).operatesOn qs = true := by
  unfold Circuit.hasOpAt
  simp [Bool.and_eq_true, decide_eq_true_iff, and_assoc]

theorem nextMomentOn_some {c : Circuit} {qs : List Nat} {start m : Int}
    (h : c.nextMomentOn qs start = some m) :
    start ≤ m ∧ 0 ≤ m ∧ m < (c.length : Int) ∧
      (getM c.moments m.toNat).operatesOn qs = true ∧
      ∀ j, start ≤ j → j < m → c.hasOpAt j qs = false := by
  unfold Circuit.nextMomentOn Circuit.firstMomentOperatingOn at h
  unfold intRange at h
  obtain ⟨h₁, _, h₃, h₄⟩ := find?_intRange_some _ _ _ _ h
  obtain ⟨ha, hb, hc⟩ := (hasOpAt_true_iff c m qs).mp h₃
  exact ⟨h₁, ha, hb, hc, h₄⟩

theorem nextMomentOn_none {c : Circuit} {qs : List Nat} {start : Int}
    (h : c.nextMomentOn qs start = none) :
    ∀ j, start ≤ j → j < (c.length : Int) → c.hasOpAt j qs = false := by
  unfold Circuit.nextMomentOn Circuit.firstMomentOperatingOn at h
  unfold intRange at h
  intro j hj₁ hj₂
  exact find?_intRange_none _ _ _ h j hj₁ (by omega)

/-- C6: `next_moment_operating_on` returns the earliest index in the window
`[start, start + max_distance)` clamped to the schedule length whose moment
touches one of the qubits (`None` when there is none), a negative
`max_distance` raises `ValueError`, and Scenario A holds: on the 3-moment
circuit `[{g(q0)}, {}, {g(q0,q1)}]`, `next_moment_operating_on([q1], 0) = 2`
and `prev_moment_operating_on([q0], end_moment_index=3) = 2`. -/
theorem next_slot_operating_on_spec (c : Circuit) (qs : List Nat) (start d : Int) :
    (d < 0 → c.nextMomentOperatingOn qs start (some d) = .error .valueError) ∧
    (0 ≤ d →
      (∃ m, c.nextMomentOperatingOn qs start (some d) = .ok (some m) ∧
          start ≤ m ∧ m < min (start + d) (c.length : Int) ∧ c.hasOpAt m qs = true ∧
          ∀ j, start ≤ j → j < m → c.hasOpAt j qs = false) ∨
      (c.nextMomentOperatingOn qs start (some d) = .ok none ∧
        ∀ j, start ≤ j → j < min (start + d) (c.length : Int) → c.hasOpAt j qs = false)) ∧
    ((∃ m, c.nextMomentOperatingOn qs start none = .ok (some m) ∧
        start ≤ m ∧ m < (c.length : Int) ∧ c.hasOpAt m qs = true ∧
        ∀ j, start ≤ j → j < m → c.hasOpAt j qs = false) ∨
      (c.nextMomentOperatingOn qs start none = .ok none ∧
        ∀ j, start ≤ j → j < (c.length : Int) → c.hasOpAt j qs = false)) ∧
    Circuit.nextMomentOperatingOn
      ⟨[⟨[⟨0, [0], [], []⟩]⟩, ⟨[]⟩, ⟨[⟨1, [0, 1], [], []⟩]⟩]⟩ [1] 0 none = .ok (some 2) ∧
    Circuit.prevMomentOperatingOn
      ⟨[⟨[⟨0, [0], [], []⟩]⟩, ⟨[]⟩, ⟨[⟨1, [0, 1], [], []⟩]⟩]⟩ [0] (some 3) none =
      .ok (some 2) := by
  refine ⟨?_, ?_, ?_, by rfl, by rfl⟩
  · intro hd
    rw [nextMOO_someArg, if_pos hd]
  · intro hd
    rw [nextMOO_someArg, if_neg (by omega)]
    cases hf : c.firstMomentOperatingOn qs (intRange start (min d ((c.length : Int) - start))) with
    | some m =>
      left
      unfold Circuit.firstMomentOperatingOn intRange at hf
      obtain ⟨h₁, h₂, h₃, h₄⟩ := find?_intRange_some _ _ _ _ hf
      obtain ⟨ha, hb, _⟩ := (hasOpAt_true_iff c m qs).mp h₃
      exact ⟨m, rfl, h₁, by omega, h₃, h₄⟩
    | none =>
      right
      refine ⟨rfl, ?_⟩
      unfold Circuit.firstMomentOperatingOn intRange at hf
      intro j hj₁ hj₂
      exact find?_intRange_none _ _ _ hf j hj₁ (by omega)
  · cases hf : c.nextMomentOn qs start with
    | some m =>
      left
      obtain ⟨h₁, ha, hb, hc, h₄⟩ := nextMomentOn_some hf
      refine ⟨m, ?_, h₁, hb, (hasOpAt_true_iff c m qs).mpr ⟨ha, hb, hc⟩, h₄⟩
      rw [nextMOO_noneArg, hf]
    | none =>
      right
      refine ⟨?_, nextMomentOn_none hf⟩
      rw [nextMOO_noneArg, hf]

/-- Witness for C6: a negative `max_distance` raises `ValueError` on the
Scenario A circuit. -/
theorem next_slot_operating_on_spec_witness :
    Circuit.nextMomentOperatingOn
      ⟨[⟨[⟨0, [0], [], []⟩]⟩, ⟨[]⟩, ⟨[⟨1, [0, 1], [], []⟩]⟩]⟩ [1] 0 (some (-1)) =
      .error .valueError :=
  (next_slot_operating_on_spec
    ⟨[⟨[⟨0, [0], [], []⟩]⟩, ⟨[]⟩, ⟨[⟨1, [0, 1], [], []⟩]⟩]⟩ [1] 0 (-1)).1 (by decide)

/-- Modelled from the spec: `BucketPriorityQueue` with duplicate suppression
(section 4.5; the module `cirq/circuits/_bucket_priority_queue.py` is not part
of the source shown).  Keys come out smallest first, FIFO within a key, and an
`(key, value)` pair already present is not enqueued again.  Represented as a
key-sorted list whose head is the next dequeue. -/
def bpqPush (k : Int) (v : Op) : List (Int × Op) → List (Int × Op)
  | [] => [(k, v)]
  | e :: es => if e.1 ≤ k then e :: bpqPush k v es else (k, v) :: e :: es

/-- Enqueue with duplicate suppression. -/
def bpqEnqueue (q : List (Int × Op)) (k : Int) (v : Op) : List (Int × Op) :=
  if (k, v) ∈ q then q else bpqPush k v q

/-- The mutable state of `reachable_frontier_from`: the `active` qubit set, the
`end_frontier` dictionary being built, and the bucket queue. -/
structure RFState where
  active : List Nat
  endF : List (Nat × Int)
  queue : List (Int × Op)
deriving Repr

/-- `enqueue_next(qubit, moment)` of `reachable_frontier_from`: either close
the qubit's frontier at `max(len(self), start_frontier[qubit])` (every call
site has `qubit` in the start frontier, so the `getD 0` default is never
exercised), or enqueue the next operation on the qubit (the `assert next_op is
not None` cannot fire because the found moment operates on the qubit). -/
def enqueueNext (c : Circuit) (sf : List (Nat × Int)) (st : RFState)
    (q : Nat) (m : Int) : RFState :=
  match c.nextMomentOn [q] m with
  | none =>
    let stm := { st with
      endF := setF st.endF q (max (c.length : Int) ((lookupF sf q).getD 0)) }
    if q ∈ st.active then { stm with active := stm.active.erase q } else stm
  | some m₂ =>
    match c.operationAt q m₂ with
    | some op => { st with queue := bpqEnqueue st.queue m₂ op }
    | none => st

/-- One step of the activation loop
`if q in start_frontier and cur_moment >= start_frontier[q] and q not in
end_frontier: active.add(q)`. -/
def rfActivate (sf ef : List (Nat × Int)) (m : Int) (act : List Nat) (q : Nat) :
    List Nat :=
  match lookupF sf q with
  | some sq =>
    if m ≥ sq ∧ lookupF ef q = none then (if q ∈ act then act else act ++ [q])
    else act
  | none => act

/-- One step of the closing loop `if q in active: end_frontier[q] = cur_moment;
active.remove(q)`. -/
def rfClose (m : Int) (s : RFState) (q : Nat) : RFState :=
  if q ∈ s.active then
    { s with endF := setF s.endF q m, active := s.active.erase q }
  else s

/-- One step of the propagation loop `enqueue_next(q, cur_moment + 1)`. -/
def rfEnq (c : Circuit) (sf : List (Nat × Int)) (m : Int) (s : RFState) (q : Nat) :
    RFState :=
  enqueueNext c sf s q (m + 1)

/-- The body of the `while queue` loop of `reachable_frontier_from`, applied to
a dequeued `(cur_moment, cur_op)` (already removed from the state's queue):
activate the op's frontier qubits, then either propagate past the op or close
the frontier of its active qubits.  `cur_op is not None` always holds. -/
def rfStep (c : Circuit) (sf : List (Nat × Int)) (isBlocker : Op → Bool)
    (st : RFState) (m : Int) (op : Op) : RFState :=
  let activeNew := op.qubits.foldl (rfActivate sf st.endF m) st.active
  let st₁ : RFState := { st with active := activeNew }
  if op.qubits.all (fun q => activeNew.contains q) && !(isBlocker op) then
    op.qubits.foldl (rfEnq c sf m) st₁
  else
    op.qubits.foldl (rfClose m) st₁

/-- The `while queue` loop, driven by fuel.  The fuel passed by
`reachableFrontierFrom` bounds the number of possible dequeues: thanks to
duplicate suppression each `(moment, op)` pair is processed at most once per
frontier qubit, so `|start_frontier| * (len + 1) + 1` iterations always
suffice to drain the queue. -/
def rfLoop (c : Circuit) (sf : List (Nat × Int)) (isBlocker : Op → Bool) :
    Nat → RFState → RFState
  | 0, st => st
  | fuel + 1, st =>
    match st.queue with
    | [] => st
    | (m, op) :: rest =>
      rfLoop c sf isBlocker fuel (rfStep c sf isBlocker { st with queue := rest } m op)

/-- `AbstractCircuit.reachable_frontier_from`. -/
def Circuit.reachableFrontierFrom (c : Circuit) (sf : List (Nat × Int))
    (isBlocker : Op → Bool) : List (Nat × Int) :=
  let st₀ := sf.foldl (fun st p => enqueueNext c sf st p.1 p.2) ⟨[], [], []⟩
  (rfLoop c sf isBlocker (sf.length * (c.length + 1) + 1) st₀).endF

theorem rfLoop_emptyQ (c : Circuit) (sf : List (Nat × Int)) (bl : Op → Bool)
    (fuel : Nat) (act : List Nat) (ef : List (Nat × Int)) :
    rfLoop c sf bl fuel ⟨act, ef, []⟩ = ⟨act, ef, []⟩ := by
  cases fuel <;> rfl

theorem rfLoop_succ_cons (c : Circuit) (sf : List (Nat × Int)) (bl : Op → Bool)
    (fuel : Nat) (act : List Nat) (ef : List (Nat × Int)) (m : Int) (op : Op)
    (rest : List (Int × Op)) :
    rfLoop c sf bl (fuel + 1) ⟨act, ef, (m, op) :: rest⟩ =
      rfLoop c sf bl fuel (rfStep c sf bl ⟨act, ef, rest⟩ m op) := rfl

theorem foldl_fix {α β : Type} (f : α → β → α) (b : α) :
    ∀ l : List β, (∀ x ∈ l, f b x = b) → l.foldl f b = b := by
  intro l
  induction l with
  | nil => intro _; rfl
  | cons x xs ih =>
    intro h
    rw [List.foldl_cons, h x (List.mem_cons_self x xs)]
    exact ih fun y hy => h y (List.mem_cons_of_mem x hy)

theorem foldl_idem {α β : Type} (f : α → β → α) (r : β) (b : α)
    (hfix : f (f b r) r = f b r) :
    ∀ l : List β, (∀ x ∈ l, x = r) → l ≠ [] → l.foldl f b = f b r := by
  intro l
  induction l with
  | nil => intro _ h; exact absurd rfl h
  | cons x xs _ =>
    intro hall _
    rw [List.foldl_cons, hall x (List.mem_cons_self x xs)]
    exact foldl_fix f (f b r) xs fun y hy => by rw [hall y (List.mem_cons_of_mem x hy), hfix]

theorem foldl_trigger {α : Type} (f : α → Nat → α) (r : Nat) (pre post : α)
    (hskip : ∀ q, q ≠ r → f pre q = pre) (hfire : f pre r = post)
    (hpost : ∀ q, f post q = post) :
    ∀ l : List Nat, r ∈ l → l.foldl f pre = post := by
  intro l
  induction l with
  | nil => intro h; cases h
  | cons x xs ih =>
    intro hr
    rw [List.foldl_cons]
    by_cases hx : x = r
    · rw [hx, hfire]
      exact foldl_fix f post xs fun y _ => hpost y
    · rw [hskip x hx]
      apply ih
      rcases List.mem_cons.mp hr with h | h
      · exact absurd h.symm hx
      · exact h

theorem mem_qubits_of_operationAt {m : Moment} {q : Nat} {op : Op}
    (h : m.operationAt q = some op) : q ∈ op.qubits := by
  unfold Moment.operationAt at h
  have := List.find?_some h
  simpa using this

theorem operationAt_isSome_of_operatesOn {m : Moment} {q : Nat}
    (h : m.operatesOn [q] = true) : ∃ op, m.operationAt q = some op := by
  unfold Moment.operatesOn at h
  unfold Moment.operationAt
  rw [List.any_eq_true] at h
  obtain ⟨o, ho, hq⟩ := h
  rw [List.any_eq_true] at hq
  obtain ⟨x, hx, hqx⟩ := hq
  have hxq : x = q := by simpa using hqx
  have : ∃ o ∈ m.ops, (fun o => o.qubits.contains q) o = true :=
    ⟨o, ho, by simpa using (hxq ▸ hx : q ∈ o.qubits)⟩
  rw [← List.find?_isSome] at this
  cases hf : m.ops.find? fun o => o.qubits.contains q with
  | none => rw [hf] at this; cases this
  | some o₂ => exact ⟨o₂, rfl⟩

theorem circuit_operationAt_some {c : Circuit} {q : Nat} {m : Int}
    (h0 : 0 ≤ m) (h1 : m < (c.length : Int))
    (h2 : (getM c.moments m.toNat).operatesOn [q] = true) :
    ∃ op, c.operationAt q m = some op ∧ q ∈ op.qubits := by
  obtain ⟨op, hop⟩ := operationAt_isSome_of_operatesOn h2
  refine ⟨op, ?_, mem_qubits_of_operationAt hop⟩
  unfold Circuit.operationAt
  rw [if_pos ⟨h0, h1⟩]
  exact hop

theorem rop_of_circuit_operationAt {c : Circuit} {q : Nat} {m : Int} {op : Op}
    (h : c.operationAt q m = some op) : q ∈ op.qubits := by
  unfold Circuit.operationAt at h
  split at h
  · exact mem_qubits_of_operationAt h
  · cases h

theorem lookupF_single_self (r : Nat) (v : Int) : lookupF [(r, v)] r = some v := by
  simp [lookupF]

theorem lookupF_single_ne {r q : Nat} (h : q ≠ r) (v : Int) : lookupF [(r, v)] q = none := by
  have h₂ : r ≠ q := Ne.symm h
  simp [lookupF, List.find?, h₂]

theorem setF_nil (r : Nat) (v : Int) : setF [] r v = [(r, v)] := rfl

theorem setF_single_self (r : Nat) (v w : Int) : setF [(r, v)] r w = [(r, w)] := by
  simp [setF]

theorem foldl_add_single {r : Nat} (f : List Nat → Nat → List Nat)
    (hfr : ∀ a, f a r = if r ∈ a then a else a ++ [r])
    (hfo : ∀ a q, q ≠ r → f a q = a) :
    ∀ (l a : List Nat), (a = [] ∨ a = [r]) →
      (l.foldl f a = [] ∨ l.foldl f a = [r]) ∧
        ((r ∈ l ∨ a = [r]) → l.foldl f a = [r]) := by
  intro l
  induction l with
  | nil =>
    intro a ha
    refine ⟨ha, ?_⟩
    intro h
    rcases h with h | h
    · cases h
    · exact h
  | cons x xs ih =>
    intro a ha
    rw [List.foldl_cons]
    by_cases hx : x = r
    · subst hx
      have hfa : f a x = [x] := by
        rcases ha with ha | ha <;> subst ha
        · rw [hfr]; simp
        · rw [hfr]; simp
      rw [hfa]
      have h₂ := ih [x] (Or.inr rfl)
      exact ⟨h₂.1, fun _ => h₂.2 (Or.inr rfl)⟩
    · rw [hfo a x hx]
      have h₂ := ih a ha
      refine ⟨h₂.1, fun h => h₂.2 ?_⟩
      rcases h with h | h
      · rcases List.mem_cons.mp h with h₃ | h₃
        · exact absurd h₃.symm hx
        · exact Or.inl h₃
      · exact Or.inr h

/-- The effect of one dequeue-and-process step in the singleton-frontier,
never-blocking run: the activation loop makes `active = [r]`, after which the
op either propagates (its qubits are all `r`: the next op on `r` is enqueued,
or the frontier closes at `max(len, s)` when there is none) or closes the
frontier at the current moment. -/
theorem rfStep_singleton (c : Circuit) (r : Nat) (s m : Int) (op : Op) (act : List Nat)
    (hact : act = [] ∨ act = [r]) (hsm : s ≤ m) (hrq : r ∈ op.qubits) :
    rfStep c [(r, s)] (fun _ => false) ⟨act, [], []⟩ m op =
      if op.qubits.all (fun q => ([r] : List Nat).contains q) then
        match c.nextMomentOn [r] (m + 1) with
        | none => ⟨[], [(r, max (c.length : Int) s)], []⟩
        | some m₂ =>
          match c.operationAt r m₂ with
          | some op₂ => ⟨[r], [], [(m₂, op₂)]⟩
          | none => ⟨[r], [], []⟩
      else ⟨[], [(r, m)], []⟩ := by
  have hA : op.qubits.foldl (rfActivate [(r, s)] [] m) act = [r] := by
    refine (foldl_add_single (rfActivate [(r, s)] [] m) ?_ ?_ op.qubits act hact).2
      (Or.inl hrq)
    · intro a
      unfold rfActivate
      rw [lookupF_single_self]
      show (if m ≥ s ∧ lookupF [] r = none then (if r ∈ a then a else a ++ [r]) else a) = _
      rw [if_pos ⟨hsm, rfl⟩]
    · intro a q hq
      unfold rfActivate
      rw [lookupF_single_ne hq]
  simp only [rfStep, hA]
  by_cases hcond : op.qubits.all (fun q => ([r] : List Nat).contains q) = true
  · have hc₂ : ((op.qubits.all fun q => ([r] : List Nat).contains q) && !false) = true := by
      rw [hcond]
      rfl
    rw [if_pos hc₂, if_pos hcond]
    have hall : ∀ q ∈ op.qubits, q = r := by
      intro q hq
      have := List.all_eq_true.mp hcond q hq
      simpa using this
    cases hn : c.nextMomentOn [r] (m + 1) with
    | none =>
      have hone : rfEnq c [(r, s)] m ⟨[r], [], []⟩ r =
          ⟨[], [(r, max (c.length : Int) s)], []⟩ := by
        simp only [rfEnq, enqueueNext, hn, setF_nil, lookupF_single_self]
        simp
      have hfix : rfEnq c [(r, s)] m ⟨[], [(r, max (c.length : Int) s)], []⟩ r =
          ⟨[], [(r, max (c.length : Int) s)], []⟩ := by
        simp only [rfEnq, enqueueNext, hn, lookupF_single_self]
        simp [setF_single_self]
      rw [foldl_idem (rfEnq c [(r, s)] m) r ⟨[r], [], []⟩ (by rw [hone, hfix]) op.qubits
        hall (by intro h; rw [h] at hrq; cases hrq), hone]
    | some m₂ =>
      cases hoA : c.operationAt r m₂ with
      | some op₂ =>
        have hone : rfEnq c [(r, s)] m ⟨[r], [], []⟩ r = ⟨[r], [], [(m₂, op₂)]⟩ := by
          simp only [rfEnq, enqueueNext, hn, hoA, bpqEnqueue]
          simp [bpqPush]
        have hfix : rfEnq c [(r, s)] m ⟨[r], [], [(m₂, op₂)]⟩ r =
            ⟨[r], [], [(m₂, op₂)]⟩ := by
          simp only [rfEnq, enqueueNext, hn, hoA, bpqEnqueue]
          simp
        rw [foldl_idem (rfEnq c [(r, s)] m) r ⟨[r], [], []⟩ (by rw [hone, hfix]) op.qubits
          hall (by intro h; rw [h] at hrq; cases hrq), hone]
        simp only [hoA]
      | none =>
        have hone : rfEnq c [(r, s)] m ⟨[r], [], []⟩ r = ⟨[r], [], []⟩ := by
          simp only [rfEnq, enqueueNext, hn, hoA]
        rw [foldl_idem (rfEnq c [(r, s)] m) r ⟨[r], [], []⟩ (by rw [hone, hone]) op.qubits
          hall (by intro h; rw [h] at hrq; cases hrq), hone]
        simp only [hoA]
  · have hc₂ : ¬ (((op.qubits.all fun q => ([r] : List Nat).contains q) && !false) = true) := by
      simp only [Bool.not_false, Bool.and_true]
      exact hcond
    rw [if_neg hc₂, if_neg hcond]
    refine foldl_trigger (rfClose m) r ⟨[r], [], []⟩ ⟨[], [(r, m)], []⟩ ?_ ?_ ?_
      op.qubits hrq
    · intro q hq
      unfold rfClose
      rw [if_neg (by simp [hq])]
    · unfold rfClose
      rw [if_pos (by simp)]
      simp [setF_nil]
    · intro q
      unfold rfClose
      rw [if_neg (by simp)]

/-- The singleton chain: from a state whose queue holds exactly the next
operation on `r` at moment `m ≥ s`, the loop eventually closes `r`'s frontier
at a value `≥ s`. -/
theorem rfChain (c : Circuit) (r : Nat) (s : Int) :
    ∀ (fuel : Nat) (m : Int) (op : Op) (act : List Nat),
      (act = [] ∨ act = [r]) →
      0 ≤ m → m < (c.length : Int) → s ≤ m →
      c.operationAt r m = some op →
      c.length - m.toNat ≤ fuel →
      ∃ v, lookupF (rfLoop c [(r, s)] (fun _ => false) fuel
          ⟨act, [], [(m, op)]⟩).endF r = some v ∧ s ≤ v := by
  intro fuel
  induction fuel with
  | zero =>
    intro m op act _ h0 hlt _ _ hfuel
    exfalso
    omega
  | succ fuel ih =>
    intro m op act hact h0 hlt hsm hop hfuel
    have hrq : r ∈ op.qubits := rop_of_circuit_operationAt hop
    rw [rfLoop_succ_cons, rfStep_singleton c r s m op act hact hsm hrq]
    by_cases hcond : op.qubits.all (fun q => ([r] : List Nat).contains q) = true
    · rw [if_pos hcond]
      cases hn : c.nextMomentOn [r] (m + 1) with
      | none =>
        simp only []
        rw [rfLoop_emptyQ]
        exact ⟨max (c.length : Int) s, lookupF_single_self r _, le_max_right _ _⟩
      | some m₂ =>
        obtain ⟨hs₂, h0₂, hlt₂, hopr₂, _⟩ := nextMomentOn_some hn
        cases hoA : c.operationAt r m₂ with
        | none =>
          obtain ⟨op₂, hoA₂, _⟩ := circuit_operationAt_some h0₂ hlt₂ hopr₂
          rw [hoA] at hoA₂
          cases hoA₂
        | some op₂ =>
          simp only [hoA]
          exact ih m₂ op₂ [r] (Or.inr rfl) h0₂ hlt₂ (by omega) hoA (by omega)
    · rw [if_neg hcond, rfLoop_emptyQ]
      exact ⟨m, lookupF_single_self r _, hsm⟩

/-- C4: for a singleton start frontier `{r: s}` and a blocker predicate that is
always false, the end frontier maps `r` to a value `≥ s`: `r`'s frontier is
closed either at `max(len, s)` when the scan runs off the end, or at the
moment of the first multi-qubit (hence blocking) operation, which lies at or
after `s`. -/
theorem reachable_frontier_singleton_ge (c : Circuit) (r : Nat) (s : Int) :
    ∃ v, lookupF (c.reachableFrontierFrom [(r, s)] (fun _ => false)) r = some v ∧
      s ≤ v := by
  simp only [Circuit.reachableFrontierFrom]
  rw [show ([(r, s)] : List (Nat × Int)).foldl
      (fun st p => enqueueNext c [(r, s)] st p.1 p.2) ⟨[], [], []⟩ =
      enqueueNext c [(r, s)] ⟨[], [], []⟩ r s from rfl]
  cases hn : c.nextMomentOn [r] s with
  | none =>
    have hstep : enqueueNext c [(r, s)] ⟨[], [], []⟩ r s =
        ⟨[], [(r, max (c.length : Int) s)], []⟩ := by
      simp only [enqueueNext, hn, setF_nil, lookupF_single_self]
      simp
    rw [hstep, rfLoop_emptyQ]
    exact ⟨max (c.length : Int) s, lookupF_single_self r _, le_max_right _ _⟩
  | some m₁ =>
    obtain ⟨hs₁, h0₁, hlt₁, hopr₁, _⟩ := nextMomentOn_some hn
    obtain ⟨op₁, hoA₁, _⟩ := circuit_operationAt_some h0₁ hlt₁ hopr₁
    have hstep : enqueueNext c [(r, s)] ⟨[], [], []⟩ r s = ⟨[], [], [(m₁, op₁)]⟩ := by
      simp only [enqueueNext, hn, hoA₁, bpqEnqueue]
      simp [bpqPush]
    rw [hstep]
    exact rfChain c r s _ m₁ op₁ [] (Or.inl rfl) h0₁ hlt₁ hs₁ hoA₁
      (by simp only [List.length_singleton]; omega)

end Cirq

